import Mathlib

/-!
# Verification of the DVID supervoxel-mapping / tarsupervoxels core

Shallow embedding of the Go sources in `datatype/labelmap/equiv.go`,
`datatype/tarsupervoxels/tarsupervoxels.go` and the gbucket storage backend.
Machine integers are modelled as `Nat`/`Int` with explicit reductions modulo
`2^w` where the Go code can overflow; byte strings are `List Nat` whose
elements are byte values; Go maps are association lists whose lookup takes
the first matching binding.
-/

set_option maxHeartbeats 1000000
set_option maxRecDepth 10000

namespace DVID

/-! ## Byte-level helpers (encoding/binary little- and big-endian) -/

/-- Little-endian encoding of `n` into `k` bytes, as in
`binary.LittleEndian.PutUint64` / `PutUint32` (truncating at `256^k`). -/
def putLE (k n : Nat) : List Nat :=
  match k with
  | 0 => []
  | k + 1 => (n % 256) :: putLE k (n / 256)

/-- Little-endian read of a byte list, as in `binary.LittleEndian.Uint64`
applied to its first bytes. -/
def readLE : List Nat → Nat
  | [] => 0
  | b :: rest => b + 256 * readLE rest

/-- Big-endian encoding of `n` into `k` bytes, as in
`binary.BigEndian.PutUint64`. -/
def putBE (k n : Nat) : List Nat :=
  (putLE k n).reverse

/-- Association-list lookup, modelling Go map indexing (`m[k]` with `, found`).
The first binding for a key wins. -/
def alookup {α : Type} : List (Nat × α) → Nat → Option α
  | [], _ => none
  | (k, v) :: rest, key => if k = key then some v else alookup rest key

/-- Association-list store, modelling Go map assignment `m[k] = v`:
replaces the first binding for `k`, or appends a new binding. -/
def aset {α : Type} : List (Nat × α) → Nat → α → List (Nat × α)
  | [], key, v => [(key, v)]
  | (k, w) :: rest, key, v =>
    if k = key then (k, v) :: rest else (k, w) :: aset rest key v

theorem putLE_length (k n : Nat) : (putLE k n).length = k := by
  induction k generalizing n with
  | zero => simp [putLE]
  | succ k ih => simp [putLE, ih]

theorem readLE_putLE (k n : Nat) : readLE (putLE k n) = n % 256 ^ k := by
  induction k generalizing n with
  | zero => simp [putLE, readLE, Nat.mod_one]
  | succ k ih =>
    simp only [putLE, readLE, ih]
    rw [pow_succ']
    rw [Nat.mod_mul]

/-! ## `vmap` — packed per-supervoxel version map
(`datatype/labelmap/equiv.go`, type `vmap []byte`).
Each 9-byte record is `(u8 short_version_id, u64 mapped_label_le)`.
The Go loops `for pos := 0; pos < sz; pos += 9` reading `vm[pos]` and
`vm[pos+1:pos+9]` are embedded as recursion consuming nine bytes per step;
the fallback patterns for a trailing fragment shorter than nine bytes
(where Go would panic on the slice bound) are never reached on well-formed
vmaps whose length is a multiple of nine. -/

/-- Inner loop of `vmap.value` and `vmap.modify`: find the 8-byte label field
of the record for the given short version id. -/
def findRecord : List Nat → Nat → Option (List Nat)
  | b :: x1 :: x2 :: x3 :: x4 :: x5 :: x6 :: x7 :: x8 :: rest, vid =>
    if b = vid then some [x1, x2, x3, x4, x5, x6, x7, x8]
    else findRecord rest vid
  | _, _ => none

/-- Ancestry walk of `vmap.value`: for each short version id in order, scan
all records; return at the first id that has one. -/
def valueLoop (vm : List Nat) : List Nat → Nat × Bool
  | [] => (0, false)
  | vid :: rest =>
    match findRecord vm vid with
    | some bs => (readLE bs, true)
    | none => valueLoop vm rest

/-- Go `vmap.value`: the mapping for a given version given its ancestry of short
version ids.  An empty vmap yields `(0, false)`. -/
def value (vm : List Nat) (ancestry : List Nat) : Nat × Bool :=
  if vm = [] then (0, false) else valueLoop vm ancestry

/-- Go `vmap.modify`: replace the label of the first record carrying `vid`
in place, or append a new 9-byte record; the returned `changed` flag is
`true` on every path of the source. -/
def modify : List Nat → Nat → Nat → List Nat × Bool
  | [], vid, toLabel => (vid :: putLE 8 toLabel, true)
  | b :: x1 :: x2 :: x3 :: x4 :: x5 :: x6 :: x7 :: x8 :: rest, vid, toLabel =>
    if b = vid then (b :: (putLE 8 toLabel ++ rest), true)
    else
      let out := modify rest vid toLabel
      (b :: x1 :: x2 :: x3 :: x4 :: x5 :: x6 :: x7 :: x8 :: out.1, out.2)
  | other, vid, toLabel => (other ++ vid :: putLE 8 toLabel, true)

/-- The short version ids of the records of a vmap, in record order. -/
def vids : List Nat → List Nat
  | b :: _ :: _ :: _ :: _ :: _ :: _ :: _ :: _ :: rest => b :: vids rest
  | _ => []

/-! ## `SVMap` — version-aware supervoxel map (`equiv.go`) -/

/-- The `SVMap` struct: forward map `fm : supervoxel ↦ vmap`, the
version ↦ short-id table, its reverse, and the count of allocated short
ids (`numVersions uint8` in the source, guarded below 255 before every
increment so `Nat` is exact).  The `sync.RWMutex` and the memoizing
`ancestry` cache are omitted: the cache only replays `getAncestry`'s
computation. -/
structure SVMap where
  fm : List (Nat × List Nat)
  versions : List (Nat × Nat)
  versionsRev : List (Nat × Nat)
  numVersions : Nat

/-- Go `SVMap.createShortVersion`: return the short id of `v`, or allocate the
next one; errors when 255 short ids are already allocated. -/
def createShortVersion (svm : SVMap) (v : Nat) : Except String (Nat × SVMap) :=
  match alookup svm.versions v with
  | some vid => .ok (vid, svm)
  | none =>
    if svm.numVersions = 255 then
      .error "can only have 256 active versions of data instance mapping"
    else
      .ok (svm.numVersions,
        { svm with
          versions := aset svm.versions v svm.numVersions
          versionsRev := aset svm.versionsRev svm.numVersions v
          numVersions := svm.numVersions + 1 })

/-- Go `SVMap.getAncestry`: short version ids that actually carry mappings,
leaf first.  `ancestors` is the slice returned by the external
`datastore.GetAncestry(v)`, whose head is `v` itself; the source drops that
head and separately prepends `v`'s own short id when present. -/
def getAncestry (svm : SVMap) (v : Nat) (ancestors : List Nat) : List Nat :=
  let anc := (ancestors.drop 1).filterMap (fun a => alookup svm.versions a)
  match alookup svm.versions v with
  | some vid => vid :: anc
  | none => anc

/-- Go `SVMap.MappedLabel`: resolve a supervoxel's mapped label at version `v`
(with `ancestors = datastore.GetAncestry v`). -/
def MappedLabel (svm : SVMap) (v : Nat) (ancestors : List Nat) (label : Nat) :
    Nat × Bool :=
  if svm.fm = [] then (label, false)
  else
    match alookup svm.fm label with
    | none => (label, false)
    | some vm => value vm (getAncestry svm v ancestors)

/-- Go `SVMap.MapSupervoxel`: set the mapping of a supervoxel at version `v`
(the zero value of a missing `fm` entry is the empty vmap). -/
def MapSupervoxel (svm : SVMap) (v supervoxel label : Nat) :
    Except String SVMap :=
  match createShortVersion svm v with
  | .error e => .error e
  | .ok (vid, svm') =>
    let vm := (alookup svm'.fm supervoxel).getD []
    .ok { svm' with fm := aset svm'.fm supervoxel (modify vm vid label).1 }

/-! ## RLE encoding (`datatype/tarsupervoxels/tarsupervoxels.go`) -/

/-- Reinterpret a `Nat` as a Go `int32` (two's complement of its low 32
bits), as `binary.Read` into an `int32` does. -/
def toInt32 (n : Nat) : Int :=
  if n % 4294967296 < 2147483648 then ((n % 4294967296 : Nat) : Int)
  else ((n % 4294967296 : Nat) : Int) - 4294967296

/-- Go `int32` wrap-around of an integer. -/
def wrap32 (i : Int) : Int :=
  toInt32 (i % 4294967296).toNat

/-- The four little-endian bytes `binary.Write(buf, binary.LittleEndian, x)`
emits for an `int32`. -/
def putLE32 (i : Int) : List Nat :=
  putLE 4 (i % 4294967296).toNat

/-- Body of the `encodeRuns` loop over `(start, length)` pairs. -/
def encodeLoop : List ((Int × Int × Int) × Int) → List Nat
  | [] => []
  | ((x, y, z), len) :: rest =>
    putLE32 x ++ (putLE32 y ++ (putLE32 z ++ (putLE32 len ++ encodeLoop rest)))

/-- Go `encodeRuns`: encode run starts and lengths as 16-byte little-endian
groups.  The source's `nil`-slice guards have no counterpart for Lean lists;
the length-mismatch guard is kept. -/
def encodeRuns (starts : List (Int × Int × Int)) (lengths : List Int) :
    Except String (List Nat) :=
  if starts.length ≠ lengths.length then
    .error "Cannot encode runs with different numbers of start points and lengths"
  else .ok (encodeLoop (starts.zip lengths))

/-- The read loop of `statsRuns`: consume a 12-byte coordinate and a 4-byte
little-endian `int32` length per iteration, accumulating both `int32`
counters with Go wrap-around. -/
def statsLoop : List Nat → Int → Int → Int × Int
  | [], numVoxels, numRuns => (numVoxels, numRuns)
  | b :: rest, numVoxels, numRuns =>
    let len := toInt32 (readLE (((b :: rest).drop 12).take 4))
    statsLoop ((b :: rest).drop 16) (wrap32 (numVoxels + len)) (wrap32 (numRuns + 1))
termination_by enc _ _ => enc.length
decreasing_by simp [List.length_drop]; omega

/-- Go `statsRuns`: total voxels and runs `(numVoxels, numRuns)` of an encoded
RLE, or the malformed-RLE error when the length is not a multiple of 16. -/
def statsRuns (encoding : List Nat) : Except String (Int × Int) :=
  if encoding.length % 16 ≠ 0 then
    .error "RLE encoding doesn't have correct # bytes"
  else .ok (statsLoop encoding 0 0)

/-! ## Derived index keys and the size pass (`tarsupervoxels.go`) -/

/-- Index bytes of `NewLabelSpatialMapKey` (KLSM): tag `KeyLabelSpatialMap`
(= 3), big-endian label, block `IndexZYX` bytes. -/
def NewLabelSpatialMapIndex (label : Nat) (blockIndex : List Nat) : List Nat :=
  3 :: (putBE 8 label ++ blockIndex)

/-- Index bytes of `NewLabelSizesKey` (KLS): tag `KeyLabelSizes` (= 4),
big-endian size, big-endian label. -/
def NewLabelSizesIndex (size label : Nat) : List Nat :=
  4 :: (putBE 8 size ++ putBE 8 label)

/-- A KLSM chunk as received by `computeSizes`: the index bytes of its key
and its RLE value. -/
structure SizeChunk where
  indexBytes : List Nat
  v : List Nat

/-- The `computeSizes` receive loop.  Per chunk it reads the label as
`binary.LittleEndian.Uint64(indexBytes[1:9])`, adds the chunk's voxel count
(`curSize += uint64(numVoxels)`, with both Go conversions and `uint64`
wrap-around), and on a label transition with `notFirst` set emits one KLS
key for the previous label; the terminating `nil` chunk emits the final
record.  The result lists the emitted KLS index keys in `batch.Put` order. -/
def computeSizesLoop :
    List SizeChunk → Nat → Nat → Bool → List (List Nat) →
    Except String (List (List Nat))
  | [], curLabel, curSize, _, acc =>
    .ok (acc ++ [NewLabelSizesIndex curSize curLabel])
  | c :: rest, curLabel, curSize, notFirst, acc =>
    let label := readLE ((c.indexBytes.drop 1).take 8)
    match statsRuns c.v with
    | .error e => .error e
    | .ok (numVoxels, _) =>
      let st :=
        if notFirst ∧ label ≠ curLabel then
          (acc ++ [NewLabelSizesIndex curSize curLabel], 0)
        else (acc, curSize)
      computeSizesLoop rest label
        ((st.2 + (numVoxels % 18446744073709551616).toNat) %
          18446744073709551616) true st.1

/-- Go `computeSizes`, as entered: `curLabel = curSize = 0` and the source's
initialization `notFirst := true`. -/
def computeSizes (chunks : List SizeChunk) : Except String (List (List Nat)) :=
  computeSizesLoop chunks 0 0 true []

/-! ## Sparse-volume assembly (`GetSparseVol`, `processLabelRuns`) -/

/-- The 12 header bytes `GetSparseVol` writes before scanning:
`PayloadBinary` (0), dimensions 3, run dimension 0, reserved 0, then two
`uint32` placeholders for `# voxels` and `# spans`. -/
def sparseVolHeader : List Nat :=
  [0, 3, 0, 0] ++ (putLE 4 0 ++ putLE 4 0)

/-- In-place overwrite of bytes `i ..` by `repl`, as
`binary.LittleEndian.PutUint32(op.encoding[8:12], _)` does. -/
def patchAt (l : List Nat) (i : Nat) (repl : List Nat) : List Nat :=
  l.take i ++ repl ++ l.drop (i + repl.length)

/-- Go `processLabelRuns` on one chunk value: append the 16-byte groups to the
encoding and add `len/16` to the `uint32` run counter. -/
def processLabelRunsFold (st : List Nat × Nat) (v : List Nat) : List Nat × Nat :=
  (st.1 ++ v, (st.2 + v.length / 16) % 4294967296)

/-- Go `GetSparseVol` byte-stream assembly over the KLSM chunk values in key
order: header, fold of `processLabelRuns`, then the `PutUint32` patch of
bytes 8..11 with the total run count. -/
def GetSparseVolBytes (values : List (List Nat)) : List Nat :=
  let st := values.foldl processLabelRunsFold (sparseVolHeader, 0)
  patchAt st.1 8 (putLE 4 st.2)

/-- The stream layout as claim C7 words it (for comparison with
`GetSparseVolBytes`): an 8-byte header — payload descriptor 0, dimensions 3,
run dimension 0, reserved 0, and a `u32` num-voxels placeholder — directly
followed by the concatenated runs, with bytes 8..11 patched to the run
count. -/
def claimSparseVolBytes (values : List (List Nat)) : List Nat :=
  let header := [0, 3, 0, 0] ++ putLE 4 0
  let enc := values.foldl (fun e v => e ++ v) header
  let numRuns := values.foldl (fun n v => (n + v.length / 16) % 4294967296) 0
  patchAt enc 8 (putLE 4 numRuns)

/-! ## Tarfile fan-out (`sendTarfile`, `getSupervoxelGoroutine`) -/

/-- The worker-partitioning loop of `sendTarfile`: `numHandlers = 256`,
`handler := i % numHandlers`.  The index parameter is threaded unchanged
because the source loop never increments `i`. -/
def svlistLoop : List Nat → Nat → List (Nat × List Nat) → List (Nat × List Nat)
  | [], _, m => m
  | sv :: rest, i, m =>
    let handler := i % 256
    let svs := (alookup m handler).getD []
    svlistLoop rest i (aset m handler (svs ++ [sv]))

/-- The `svlist` map built by `sendTarfile` from the enumeration of the
supervoxel set, starting at `i := 0`. -/
def sendTarfilePartition (supervoxels : List Nat) : List (Nat × List Nat) :=
  svlistLoop supervoxels 0 []

/-- Tar entry name `fmt.Sprintf("%d.%s", supervoxel, d.Extension)`. -/
def tarName (sv : Nat) (ext : String) : String :=
  toString sv ++ "." ++ ext

/-- The `fileData` records of `getSupervoxelGoroutine`. -/
structure FileData where
  header : Option (String × Nat)
  data : List Nat
  err : Option String

/-- Go `getSupervoxelGoroutine` over its supervoxel list.  The store models the
key-value backend keyed by supervoxel: a missing key yields `nil` data and a
`nil` error (gbucket `getV` returns `nil, nil` on `ErrObjectNotExist`),
`NewTKey` never fails, and the timestamp variant differs only in `ModTime`.
Every iteration therefore emits a `fileData` whose header carries the tar
name and `int64(len(data))`. -/
def getSupervoxelFiles (store : List (Nat × List Nat)) (ext : String)
    (svs : List Nat) : List FileData :=
  svs.map fun sv =>
    let data := (alookup store sv).getD []
    { header := some (tarName sv ext, data.length), data := data, err := none }

/-- The writer loop of `sendTarfile`: consume the `fileData` results in
order; on `fd.err` the source executes `return err` — the enclosing `err`
variable, which is `nil` — so the stream ends without a reported error;
otherwise a non-`nil` header is written followed by its data. -/
def writeTarLoop :
    List FileData → List ((String × Nat) × List Nat) →
    Except String (List ((String × Nat) × List Nat))
  | [], acc => .ok acc
  | fd :: rest, acc =>
    if fd.err.isSome then .ok acc
    else
      match fd.header with
      | none => writeTarLoop rest acc
      | some h => writeTarLoop rest (acc ++ [(h, fd.data)])

/-- The tar entries `sendTarfile` produces for a supervoxel enumeration
(concurrent fan-out flattened to the enumeration order). -/
def sendTarfileEntries (store : List (Nat × List Nat)) (ext : String)
    (svs : List Nat) : Except String (List ((String × Nat) × List Nat)) :=
  writeTarLoop (getSupervoxelFiles store ext svs) []

/-! ## Tar ingest (`ingestTarfile`) -/

/-- Decimal value of a digit string, as `fmt.Sscanf` `%d` accumulates it. -/
def digitsToNat (ds : List Char) : Nat :=
  ds.foldl (fun n c => n * 10 + (c.toNat - 48)) 0

/-- Go `fmt.Sscanf(hdr.Name, "%d.%s", &supervoxel, &ext)`: a nonempty digit
run, a literal dot, then a nonempty whitespace-free token; anything else
leaves fewer than two operands scanned and the source aborts.  (Go `%s`
stops at whitespace and `Sscanf` ignores unconsumed trailing input.) -/
def parseFilename (name : List Char) : Option (Nat × List Char) :=
  let digits := name.takeWhile Char.isDigit
  let rest := name.dropWhile Char.isDigit
  if digits = [] then none
  else
    match rest with
    | '.' :: rest2 =>
      let ext := rest2.takeWhile (fun c => ¬ c.isWhitespace)
      if ext = [] then none else some (digitsToNat digits, ext)
    | _ => none

/-- Modelled from the spec: `NewTKey`, referenced by `ingestTarfile` but
defined in a source file (the tarsupervoxels `keys.go`) that is not among
the sources.  Spec §4.E: tar filenames are `<supervoxel>.<extension>` and
"The `Extension` is part of the per-supervoxel value key", so the standard
supervoxel key is determined by the pair; it never fails. -/
def NewTKey (supervoxel : Nat) (ext : List Char) : Nat × List Char :=
  (supervoxel, ext)

/-- The `ingestTarfile` entry loop: parse each name, enforce the configured
extension and a nonzero supervoxel id, and `Put` the bytes under the
standard key; any failure aborts before the offending entry's `Put`.
Returns the `Put`s issued, in order, and the abort error if any. -/
def ingestLoop (Extension : List Char) :
    List (List Char × List Nat) → List ((Nat × List Char) × List Nat) →
    List ((Nat × List Char) × List Nat) × Option String
  | [], acc => (acc, none)
  | (name, data) :: rest, acc =>
    match parseFilename name with
    | none => (acc, some "file name is invalid, expect supervoxel+ext")
    | some (supervoxel, ext) =>
      if ext ≠ Extension then (acc, some "file name has bad extension")
      else if supervoxel = 0 then
        (acc, some "supervoxel 0 is reserved and cannot have data saved under 0 id")
      else ingestLoop Extension rest (acc ++ [(NewTKey supervoxel ext, data)])

/-- Go `ingestTarfile` over the tar entries `(name, bytes)` in stream order. -/
def ingestTarfile (Extension : List Char)
    (entries : List (List Char × List Nat)) :
    List ((Nat × List Char) × List Nat) × Option String :=
  ingestLoop Extension entries []

/-- The `Put` an entry leads to when it is acceptable: parse succeeds, the
extension matches, the supervoxel is nonzero. -/
def entryPut (Extension : List Char) (e : List Char × List Nat) :
    Option ((Nat × List Char) × List Nat) :=
  match parseFilename e.1 with
  | none => none
  | some (sv, ext) =>
    if ext = Extension ∧ sv ≠ 0 then some (NewTKey sv ext, e.2) else none

/-! ## Association-list lemmas -/

theorem alookup_eq_none {α : Type} (l : List (Nat × α)) (key : Nat)
    (h : ∀ p ∈ l, p.1 ≠ key) : alookup l key = none := by
  induction l with
  | nil => rfl
  | cons p rest ih =>
    obtain ⟨k, v⟩ := p
    simp only [alookup]
    rw [if_neg (h (k, v) (by simp))]
    exact ih fun q hq => h q (by simp [hq])

theorem aset_of_none {α : Type} (l : List (Nat × α)) (key : Nat) (v : α)
    (h : alookup l key = none) : aset l key v = l ++ [(key, v)] := by
  induction l with
  | nil => rfl
  | cons p rest ih =>
    obtain ⟨k, w⟩ := p
    simp only [alookup] at h
    simp only [aset]
    by_cases hk : k = key
    · simp [hk] at h
    · rw [if_neg hk] at h ⊢
      rw [ih h]
      simp

theorem alookup_aset_self {α : Type} (l : List (Nat × α)) (key : Nat) (v : α) :
    alookup (aset l key v) key = some v := by
  induction l with
  | nil => simp [aset, alookup]
  | cons p rest ih =>
    obtain ⟨k, w⟩ := p
    simp only [aset]
    by_cases hk : k = key
    · simp [hk, alookup]
    · rw [if_neg hk]
      simp only [alookup]
      rw [if_neg hk]
      exact ih

/-! ## C2 / C9: short-version-id allocation -/

/-- Allocating short ids for the `n` distinct versions `0, 1, …, n-1`
in order, starting from a fresh `SVMap`. -/
def allocRun : Nat → Except String SVMap
  | 0 => .ok ⟨[], [], [], 0⟩
  | n + 1 =>
    match allocRun n with
    | .error e => .error e
    | .ok svm =>
      match createShortVersion svm n with
      | .error e => .error e
      | .ok (_, svm') => .ok svm'

theorem allocRun_ok (n : Nat) (h : n ≤ 255) :
    allocRun n = .ok ⟨[], (List.range n).map (fun i => (i, i)),
      (List.range n).map (fun i => (i, i)), n⟩ := by
  induction n with
  | zero => rfl
  | succ n ih =>
    have hn : n ≤ 255 := Nat.le_of_succ_le h
    have hnone : alookup ((List.range n).map (fun i => (i, i))) n = none := by
      apply alookup_eq_none
      intro p hp
      simp only [List.mem_map, List.mem_range] at hp
      obtain ⟨i, hi, rfl⟩ := hp
      exact Nat.ne_of_lt hi
    simp only [allocRun, ih hn, createShortVersion, hnone]
    rw [if_neg (by omega)]
    simp only [aset_of_none _ _ _ hnone]
    simp [List.range_succ]

theorem allocRun_succ_ok {n : Nat} {svm : SVMap} (h : allocRun n = .ok svm) :
    allocRun (n + 1) =
      match createShortVersion svm n with
      | .error e => .error e
      | .ok (_, svm') => .ok svm' := by
  show (match allocRun n with
    | Except.error e => Except.error e
    | Except.ok svm =>
      match createShortVersion svm n with
      | Except.error e => Except.error e
      | Except.ok (_, svm') => Except.ok svm') = _
  rw [h]

theorem createShortVersion_at_255 :
    createShortVersion ⟨[], (List.range 255).map (fun i => (i, i)),
        (List.range 255).map (fun i => (i, i)), 255⟩ 255 =
      .error "can only have 256 active versions of data instance mapping" := by
  have hnone : alookup ((List.range 255).map (fun i => (i, i))) 255 = none := by
    apply alookup_eq_none
    intro p hp
    simp only [List.mem_map, List.mem_range] at hp
    obtain ⟨i, hi, rfl⟩ := hp
    exact Nat.ne_of_lt hi
  simp only [createShortVersion]
  rw [hnone]
  simp

/-- C2 (counterexample): the claim says allocating short ids for 256
distinct versions succeeds; in fact the guard `numVersions == 255` makes
the 256th distinct version fail after ids 0..254 are handed out. -/
theorem c2_counterexample :
    allocRun 256 = .error "can only have 256 active versions of data instance mapping" := by
  have h255 := allocRun_ok 255 (le_refl 255)
  show allocRun (255 + 1) = _
  rw [allocRun_succ_ok h255, createShortVersion_at_255]

/-- C2 (amended): an SVMap instance hosts at most 255 live short version
ids (0..254): allocating short ids for 255 distinct versions succeeds and
assigns ids 0..254, and a mutation that would require a 256th distinct
version fails with the version-limit overflow error. -/
theorem c2_theorem :
    allocRun 255 = .ok ⟨[], (List.range 255).map (fun i => (i, i)),
        (List.range 255).map (fun i => (i, i)), 255⟩
    ∧ ∃ e, allocRun 256 = Except.error e := by
  refine ⟨allocRun_ok 255 (le_refl 255),
    "can only have 256 active versions of data instance mapping", ?_⟩
  have h255 := allocRun_ok 255 (le_refl 255)
  show allocRun (255 + 1) = _
  rw [allocRun_succ_ok h255, createShortVersion_at_255]

/-- C9: short-version-id allocation is idempotent by version — a second
call for `v` returns the same id and leaves the forward table, reverse
table and version count unchanged — and a first call for a new version
(when the table is dense with ids `0..numVersions-1`, `numVersions < 255`
by the `uint8` range and the overflow guard) assigns the next free id,
recording it in both tables. -/
theorem c9_theorem :
    (∀ (svm : SVMap) (v vid : Nat) (svm' : SVMap),
      createShortVersion svm v = .ok (vid, svm') →
      createShortVersion svm' v = .ok (vid, svm'))
    ∧ (∀ (svm : SVMap) (v : Nat),
      alookup svm.versions v = none →
      svm.numVersions < 255 →
      (∀ id, id ∈ svm.versions.map Prod.snd ↔ id < svm.numVersions) →
      createShortVersion svm v = .ok (svm.numVersions,
        ⟨svm.fm, aset svm.versions v svm.numVersions,
         aset svm.versionsRev svm.numVersions v, svm.numVersions + 1⟩)
      ∧ svm.numVersions ∉ svm.versions.map Prod.snd
      ∧ (∀ j, j < svm.numVersions → j ∈ svm.versions.map Prod.snd)
      ∧ alookup (aset svm.versions v svm.numVersions) v = some svm.numVersions
      ∧ alookup (aset svm.versionsRev svm.numVersions v) svm.numVersions = some v) := by
  constructor
  · intro svm v vid svm' h
    unfold createShortVersion at h ⊢
    cases h1 : alookup svm.versions v with
    | some vid0 =>
      rw [h1] at h
      obtain ⟨rfl, rfl⟩ : vid0 = vid ∧ svm = svm' := by
        simpa using h
      rw [h1]
    | none =>
      rw [h1] at h
      by_cases h2 : svm.numVersions = 255
      · rw [if_pos h2] at h
        exact absurd h (by simp)
      · rw [if_neg h2] at h
        obtain ⟨rfl, rfl⟩ : svm.numVersions = vid ∧ _ = svm' := by
          simpa using h
        rw [alookup_aset_self]
  · intro svm v hnone hlt hdense
    refine ⟨?_, ?_, ?_, alookup_aset_self _ _ _, alookup_aset_self _ _ _⟩
    · unfold createShortVersion
      rw [hnone, if_neg (by omega)]
    · intro hmem
      exact absurd ((hdense _).1 hmem) (by omega)
    · intro j hj
      exact (hdense j).2 hj

/-- C9 (witness): both parts of `c9_theorem` at concrete inputs — a second
allocation for version 7 returns its existing id 0 unchanged, and a first
allocation on a fresh map assigns id 0 and records it in both tables. -/
theorem c9_witness :
    createShortVersion (⟨[], [(7, 0)], [(0, 7)], 1⟩ : SVMap) 7 =
      .ok (0, ⟨[], [(7, 0)], [(0, 7)], 1⟩)
    ∧ createShortVersion (⟨[], [], [], 0⟩ : SVMap) 5 =
      .ok (0, ⟨[], aset [] 5 0, aset [] 0 5, 1⟩) := by
  constructor
  · exact c9_theorem.1 ⟨[], [(7, 0)], [(0, 7)], 1⟩ 7 0 ⟨[], [(7, 0)], [(0, 7)], 1⟩ rfl
  · exact (c9_theorem.2 ⟨[], [], [], 0⟩ 5 rfl (by decide) (by simp [alookup])).1

/-! ## C1: `MappedLabel` resolution along the ancestry -/

theorem valueLoop_none (vm : List Nat) (anc : List Nat)
    (h : ∀ vid ∈ anc, findRecord vm vid = none) :
    valueLoop vm anc = (0, false) := by
  induction anc with
  | nil => rfl
  | cons vid rest ih =>
    simp only [valueLoop]
    rw [h vid (by simp)]
    exact ih fun w hw => h w (by simp [hw])

theorem valueLoop_first (vm : List Nat) (pre : List Nat) (vid : Nat)
    (suf : List Nat) (bs : List Nat)
    (hpre : ∀ w ∈ pre, findRecord vm w = none)
    (hf : findRecord vm vid = some bs) :
    valueLoop vm (pre ++ vid :: suf) = (readLE bs, true) := by
  induction pre with
  | nil =>
    simp only [List.nil_append, valueLoop]
    rw [hf]
  | cons w rest ih =>
    simp only [List.cons_append, valueLoop]
    rw [hpre w (by simp)]
    exact ih fun u hu => hpre u (by simp [hu])

theorem findRecord_ne_nil {vm : List Nat} {vid : Nat} {bs : List Nat}
    (h : findRecord vm vid = some bs) : vm ≠ [] := by
  intro heq
  rw [heq] at h
  exact absurd h (by simp [findRecord])

/-- C1 (amended): `MappedLabel(v, s)` returns, with `present = true`, the
label attached to the first short version id in the ancestry of `v` that
has a record for `s`; when `s` has no `fm` entry at all (or `fm` is empty)
it returns `(s, false)`; but when `s` has an `fm` entry none of whose
records is visible in the ancestry, it returns `(0, false)` — not
`(s, false)` as the claim states. -/
theorem c1_theorem (svm : SVMap) (v : Nat) (ancestors : List Nat) (s : Nat) :
    ((svm.fm = [] ∨ alookup svm.fm s = none) →
      MappedLabel svm v ancestors s = (s, false))
    ∧ (∀ vm, alookup svm.fm s = some vm →
        (∀ vid ∈ getAncestry svm v ancestors, findRecord vm vid = none) →
        MappedLabel svm v ancestors s = (0, false))
    ∧ (∀ vm pre vid suf bs, alookup svm.fm s = some vm →
        getAncestry svm v ancestors = pre ++ vid :: suf →
        (∀ w ∈ pre, findRecord vm w = none) →
        findRecord vm vid = some bs →
        MappedLabel svm v ancestors s = (readLE bs, true)) := by
  refine ⟨?_, ?_, ?_⟩
  · rintro (h | h)
    · simp [MappedLabel, h]
    · by_cases hfm : svm.fm = []
      · simp [MappedLabel, hfm]
      · simp only [MappedLabel, if_neg hfm]
        rw [h]
  · intro vm hlook hnone
    have hfm : svm.fm ≠ [] := by
      intro heq
      rw [heq] at hlook
      exact absurd hlook (by simp [alookup])
    simp only [MappedLabel, if_neg hfm]
    rw [hlook]
    by_cases hvm : vm = []
    · simp [value, hvm]
    · simp only [value, if_neg hvm]
      exact valueLoop_none vm _ hnone
  · intro vm pre vid suf bs hlook hanc hpre hf
    have hfm : svm.fm ≠ [] := by
      intro heq
      rw [heq] at hlook
      exact absurd hlook (by simp [alookup])
    simp only [MappedLabel, if_neg hfm]
    rw [hlook]
    simp only [value, if_neg (findRecord_ne_nil hf)]
    rw [hanc]
    exact valueLoop_first vm pre vid suf bs hpre hf

/-- C1 (witness): `c1_theorem` at a five-supervoxel map where version 7
holds short id 3 and supervoxel 5 carries the record `(3 ↦ 10)`:
resolution finds label 10, and supervoxel 6 (absent) maps to itself. -/
theorem c1_witness :
    MappedLabel ⟨[(5, 3 :: putLE 8 10)], [(7, 3)], [(3, 7)], 1⟩ 7 [7] 5 =
      (readLE (putLE 8 10), true)
    ∧ MappedLabel ⟨[(5, 3 :: putLE 8 10)], [(7, 3)], [(3, 7)], 1⟩ 7 [7] 6 =
      (6, false)
    ∧ readLE (putLE 8 10) = 10 := by
  refine ⟨?_, ?_, by decide⟩
  · exact (c1_theorem ⟨[(5, 3 :: putLE 8 10)], [(7, 3)], [(3, 7)], 1⟩ 7 [7] 5).2.2
      (3 :: putLE 8 10) [] 3 [] (putLE 8 10) rfl rfl (by simp) (by decide)
  · exact (c1_theorem ⟨[(5, 3 :: putLE 8 10)], [(7, 3)], [(3, 7)], 1⟩ 7 [7] 6).1
      (Or.inr rfl)

/-- C1 (counterexample): supervoxel 5 has a vmap record under short id 3,
but version 7 carries no short id, so nothing is visible in the ancestry;
the claim says `MappedLabel` then returns `(5, false)`, yet the source
returns `vm.value`'s zero result `(0, false)`. -/
theorem c1_counterexample :
    getAncestry ⟨[(5, 3 :: putLE 8 10)], [], [], 0⟩ 7 [7] = []
    ∧ MappedLabel ⟨[(5, 3 :: putLE 8 10)], [], [], 0⟩ 7 [7] 5 = (0, false)
    ∧ MappedLabel ⟨[(5, 3 :: putLE 8 10)], [], [], 0⟩ 7 [7] 5 ≠ (5, false) := by
  decide

/-! ## C10: structure preservation of `vmap.modify` -/

theorem exists_nine_cons (l : List Nat) (h : 9 ≤ l.length) :
    ∃ b x1 x2 x3 x4 x5 x6 x7 x8 rest,
      l = b :: x1 :: x2 :: x3 :: x4 :: x5 :: x6 :: x7 :: x8 :: rest := by
  match l with
  | b :: x1 :: x2 :: x3 :: x4 :: x5 :: x6 :: x7 :: x8 :: rest =>
    exact ⟨b, x1, x2, x3, x4, x5, x6, x7, x8, rest, rfl⟩
  | [] => simp at h
  | [_] => simp at h
  | [_, _] => simp at h
  | [_, _, _] => simp at h
  | [_, _, _, _] => simp at h
  | [_, _, _, _, _] => simp at h
  | [_, _, _, _, _, _] => simp at h
  | [_, _, _, _, _, _, _] => simp at h
  | [_, _, _, _, _, _, _, _] => simp at h

theorem not_nine_short (other : List Nat) (hnil : other = [] → False)
    (hshape : ∀ b x1 x2 x3 x4 x5 x6 x7 x8 rest,
      other = b :: x1 :: x2 :: x3 :: x4 :: x5 :: x6 :: x7 :: x8 :: rest → False)
    (hlen : other.length % 9 = 0) : False := by
  by_cases h9 : 9 ≤ other.length
  · obtain ⟨b, x1, x2, x3, x4, x5, x6, x7, x8, rest, rfl⟩ :=
      exists_nine_cons other h9
    exact hshape _ _ _ _ _ _ _ _ _ _ rfl
  · have h0 : other.length = 0 := by omega
    exact hnil (List.length_eq_zero.mp h0)

theorem modify_length (vm : List Nat) (vid lbl : Nat)
    (hlen : vm.length % 9 = 0) :
    (modify vm vid lbl).1.length % 9 = 0 := by
  induction vm, vid, lbl using modify.induct with
  | case1 vid lbl => simp [modify, putLE_length]
  | case2 x1 x2 x3 x4 x5 x6 x7 x8 rest vid lbl =>
    simp only [List.length_cons] at hlen
    simp [modify, putLE_length]
    omega
  | case3 b x1 x2 x3 x4 x5 x6 x7 x8 rest vid lbl hne ih =>
    simp only [List.length_cons] at hlen
    have h9 : rest.length % 9 = 0 := by omega
    have := ih h9
    simp [modify, hne]
    omega
  | case4 other vid lbl hnil hshape =>
    exact absurd hlen (fun h => not_nine_short other hnil hshape h)

theorem vids_modify (vm : List Nat) (vid lbl : Nat)
    (hlen : vm.length % 9 = 0) :
    vids (modify vm vid lbl).1 =
      if vid ∈ vids vm then vids vm else vids vm ++ [vid] := by
  induction vm, vid, lbl using modify.induct with
  | case1 vid lbl => simp [modify, putLE, vids]
  | case2 x1 x2 x3 x4 x5 x6 x7 x8 rest vid lbl =>
    simp [modify, putLE, vids]
  | case3 b x1 x2 x3 x4 x5 x6 x7 x8 rest vid lbl hne ih =>
    simp only [List.length_cons] at hlen
    have h9 : rest.length % 9 = 0 := by omega
    have hr := ih h9
    simp only [modify, if_neg hne, vids, hr]
    by_cases hmem : vid ∈ vids rest
    · simp [hmem, Ne.symm hne]
    · simp [hmem, Ne.symm hne]
  | case4 other vid lbl hnil hshape =>
    exact absurd hlen (fun h => not_nine_short other hnil hshape h)

theorem modify_findRecord_self (vm : List Nat) (vid lbl : Nat)
    (hlen : vm.length % 9 = 0) :
    findRecord (modify vm vid lbl).1 vid = some (putLE 8 lbl) := by
  induction vm, vid, lbl using modify.induct with
  | case1 vid lbl => simp [modify, putLE, findRecord]
  | case2 x1 x2 x3 x4 x5 x6 x7 x8 rest vid lbl =>
    simp [modify, putLE, findRecord]
  | case3 b x1 x2 x3 x4 x5 x6 x7 x8 rest vid lbl hne ih =>
    simp only [List.length_cons] at hlen
    have h9 : rest.length % 9 = 0 := by omega
    simp only [modify, if_neg hne, findRecord]
    exact ih h9
  | case4 other vid lbl hnil hshape =>
    exact absurd hlen (fun h => not_nine_short other hnil hshape h)

theorem modify_findRecord_ne (vm : List Nat) (vid lbl w : Nat)
    (hlen : vm.length % 9 = 0) (hw : w ≠ vid) :
    findRecord (modify vm vid lbl).1 w = findRecord vm w := by
  induction vm, vid, lbl using modify.induct with
  | case1 vid lbl =>
    simp [modify, putLE, findRecord, Ne.symm hw]
  | case2 x1 x2 x3 x4 x5 x6 x7 x8 rest vid lbl =>
    simp [modify, putLE, findRecord, Ne.symm hw]
  | case3 b x1 x2 x3 x4 x5 x6 x7 x8 rest vid lbl hne ih =>
    simp only [List.length_cons] at hlen
    have h9 : rest.length % 9 = 0 := by omega
    simp only [modify, if_neg hne, findRecord]
    by_cases hb : b = w
    · simp [hb]
    · rw [if_neg hb, if_neg hb]
      exact ih h9 hw
  | case4 other vid lbl hnil hshape =>
    exact absurd hlen (fun h => not_nine_short other hnil hshape h)

/-- C10: `vmap.modify` is structure-preserving — on a packed vmap whose
length is a multiple of 9 with pairwise-distinct short version ids, the
result again has length a multiple of 9 and pairwise-distinct ids, contains
exactly one record for `vid` and it carries `toLabel`, and every record for
a different id is byte-for-byte that of the input.  (The model is pure, so
the input bytes are never mutated; the source likewise allocates a fresh
slice with `make` on every path.) -/
theorem c10_theorem (vm : List Nat) (vid lbl : Nat)
    (hlen : vm.length % 9 = 0) (hnodup : (vids vm).Nodup) :
    (modify vm vid lbl).1.length % 9 = 0
    ∧ (vids (modify vm vid lbl).1).Nodup
    ∧ (vids (modify vm vid lbl).1).count vid = 1
    ∧ findRecord (modify vm vid lbl).1 vid = some (putLE 8 lbl)
    ∧ (∀ w, w ≠ vid → findRecord (modify vm vid lbl).1 w = findRecord vm w) := by
  refine ⟨modify_length vm vid lbl hlen, ?_, ?_,
    modify_findRecord_self vm vid lbl hlen,
    fun w hw => modify_findRecord_ne vm vid lbl w hlen hw⟩
  · rw [vids_modify vm vid lbl hlen]
    by_cases hmem : vid ∈ vids vm
    · simpa [hmem] using hnodup
    · simp [hmem, List.nodup_append, hnodup]
  · rw [vids_modify vm vid lbl hlen]
    by_cases hmem : vid ∈ vids vm
    · rw [if_pos hmem]
      exact List.count_eq_one_of_mem hnodup hmem
    · rw [if_neg hmem]
      simp [List.count_append, List.count_eq_zero_of_not_mem hmem]

/-- C10 (witness): `c10_theorem` on the two-record vmap `(3 ↦ 10), (4 ↦ 20)`
modifying id 4 to label 7. -/
theorem c10_witness :
    (modify (3 :: putLE 8 10 ++ (4 :: putLE 8 20)) 4 7).1.length % 9 = 0
    ∧ (vids (modify (3 :: putLE 8 10 ++ (4 :: putLE 8 20)) 4 7).1).Nodup
    ∧ (vids (modify (3 :: putLE 8 10 ++ (4 :: putLE 8 20)) 4 7).1).count 4 = 1
    ∧ findRecord (modify (3 :: putLE 8 10 ++ (4 :: putLE 8 20)) 4 7).1 4 =
        some (putLE 8 7)
    ∧ (∀ w, w ≠ 4 →
        findRecord (modify (3 :: putLE 8 10 ++ (4 :: putLE 8 20)) 4 7).1 w =
          findRecord (3 :: putLE 8 10 ++ (4 :: putLE 8 20)) w) :=
  c10_theorem (3 :: putLE 8 10 ++ (4 :: putLE 8 20)) 4 7 (by decide) (by decide)

/-! ## C4: RLE encoder / reader agreement -/

theorem wrap32_emod (a : Int) :
    wrap32 a % 4294967296 = a % 4294967296 := by
  unfold wrap32 toInt32
  have hnn : 0 ≤ a % 4294967296 := Int.emod_nonneg a (by norm_num)
  have hlt : a % 4294967296 < 4294967296 := Int.emod_lt_of_pos a (by norm_num)
  have htn : ((a % 4294967296).toNat : Int) = a % 4294967296 :=
    Int.toNat_of_nonneg hnn
  have hmod : (a % 4294967296).toNat % 4294967296 =
      (a % 4294967296).toNat :=
    Nat.mod_eq_of_lt (by omega)
  rw [hmod]
  split <;> rw [htn] <;> omega

theorem wrap32_congr {a b : Int}
    (h : a % 4294967296 = b % 4294967296) : wrap32 a = wrap32 b := by
  unfold wrap32
  rw [h]

theorem wrap32_add_left (a b : Int) :
    wrap32 (wrap32 a + b) = wrap32 (a + b) :=
  wrap32_congr (by rw [Int.add_emod, wrap32_emod, ← Int.add_emod])

theorem wrap32_idem (a : Int) : wrap32 (wrap32 a) = wrap32 a :=
  wrap32_congr (wrap32_emod a)

theorem putLE32_length (i : Int) : (putLE32 i).length = 4 :=
  putLE_length 4 _

theorem readLE_putLE32 (i : Int) : toInt32 (readLE (putLE32 i)) = wrap32 i := by
  unfold putLE32 wrap32
  rw [readLE_putLE]
  have hnn : 0 ≤ i % 4294967296 := Int.emod_nonneg i (by norm_num)
  have hlt : i % 4294967296 < 4294967296 := Int.emod_lt_of_pos i (by norm_num)
  have : (i % 4294967296).toNat % 256 ^ 4 = (i % 4294967296).toNat :=
    Nat.mod_eq_of_lt (by norm_num; omega)
  rw [this]

theorem encodeLoop_length (ps : List ((Int × Int × Int) × Int)) :
    (encodeLoop ps).length = 16 * ps.length := by
  induction ps with
  | nil => simp [encodeLoop]
  | cons p rest ih =>
    obtain ⟨⟨x, y, z⟩, len⟩ := p
    simp [encodeLoop, putLE32_length, ih]
    omega

theorem exists_four (l : List Nat) (h : l.length = 4) :
    ∃ a b c d, l = [a, b, c, d] := by
  match l with
  | [a, b, c, d] => exact ⟨a, b, c, d, rfl⟩
  | [] => simp at h
  | [_] => simp at h
  | [_, _] => simp at h
  | [_, _, _] => simp at h
  | _ :: _ :: _ :: _ :: _ :: _ => simp at h

theorem statsLoop_step (p1 p2 p3 p4 tail : List Nat)
    (h1 : p1.length = 4) (h2 : p2.length = 4) (h3 : p3.length = 4)
    (h4 : p4.length = 4) (a r : Int) :
    statsLoop (p1 ++ (p2 ++ (p3 ++ (p4 ++ tail)))) a r =
      statsLoop tail (wrap32 (a + toInt32 (readLE p4))) (wrap32 (r + 1)) := by
  obtain ⟨a0, a1, a2, a3, rfl⟩ := exists_four p1 h1
  obtain ⟨b0, b1, b2, b3, rfl⟩ := exists_four p2 h2
  obtain ⟨c0, c1, c2, c3, rfl⟩ := exists_four p3 h3
  obtain ⟨d0, d1, d2, d3, rfl⟩ := exists_four p4 h4
  simp [statsLoop, List.drop, List.take]

theorem statsLoop_encodeLoop (ps : List ((Int × Int × Int) × Int))
    (a r : Int) :
    statsLoop (encodeLoop ps) a r =
      (ps.foldl (fun x p => wrap32 (x + wrap32 p.2)) a,
       ps.foldl (fun x _ => wrap32 (x + 1)) r) := by
  induction ps generalizing a r with
  | nil => simp [encodeLoop, statsLoop]
  | cons p rest ih =>
    obtain ⟨⟨x, y, z⟩, len⟩ := p
    simp only [encodeLoop]
    rw [statsLoop_step _ _ _ _ _ (putLE32_length x) (putLE32_length y)
      (putLE32_length z) (putLE32_length len), readLE_putLE32, ih]
    simp [List.foldl]

theorem count_foldl_wrap32 (l : List Nat) (r : Int) (hr : wrap32 r = r) :
    l.foldl (fun (x : Int) (_ : Nat) => wrap32 (x + 1)) r =
      wrap32 (r + l.length) := by
  induction l generalizing r with
  | nil => simpa using hr.symm
  | cons b rest ih =>
    simp only [List.foldl, List.length_cons]
    rw [ih (wrap32 (r + 1)) (wrap32_idem _), wrap32_add_left]
    congr 1
    push_cast
    ring

theorem statsLoop_runs : ∀ n, ∀ (enc : List Nat) (a r : Int),
    enc.length = n → n % 16 = 0 → wrap32 r = r →
    ∃ nv, statsLoop enc a r = (nv, wrap32 (r + (n / 16 : Nat))) := by
  intro n
  induction n using Nat.strong_induction_on with
  | _ n ih =>
    intro enc a r hlen hmod hr
    cases enc with
    | nil =>
      refine ⟨a, ?_⟩
      simp only [statsLoop]
      simp only [List.length_nil] at hlen
      subst hlen
      simp [hr]
    | cons b rest =>
      have h16 : 16 ≤ n := by
        have hpos : 0 < n := by
          simp only [List.length_cons] at hlen
          omega
        omega
      simp only [statsLoop]
      have hlc : rest.length + 1 = n := by simpa using hlen
      have hlen' : ((b :: rest).drop 16).length = n - 16 := by
        simp [List.length_drop]
        omega
      obtain ⟨nv, hnv⟩ := ih (n - 16) (by omega) ((b :: rest).drop 16)
        (wrap32 (a + toInt32 (readLE (((b :: rest).drop 12).take 4))))
        (wrap32 (r + 1)) hlen' (by omega) (wrap32_idem _)
      refine ⟨nv, hnv.trans ?_⟩
      rw [wrap32_add_left]
      have heq : r + 1 + (((n - 16) / 16 : Nat) : Int) =
          r + ((n / 16 : Nat) : Int) := by
        have : (n - 16) / 16 + 1 = n / 16 := by omega
        omega
      rw [heq]

/-- C4: `encodeRuns` on equal-length start/length slices of `n` entries
produces exactly `16·n` bytes (each run four little-endian `int32`s), and
`statsRuns` fails with the malformed-RLE error exactly when the byte count
is not a multiple of 16, otherwise returning `numRuns = len/16` and
`numVoxels` equal to the sum of the run lengths (both accumulated in Go
`int32` arithmetic, as in the source). -/
theorem c4_theorem :
    (∀ (starts : List (Int × Int × Int)) (lengths : List Int),
      starts.length = lengths.length →
      encodeRuns starts lengths = .ok (encodeLoop (starts.zip lengths))
      ∧ (encodeLoop (starts.zip lengths)).length = 16 * starts.length
      ∧ statsRuns (encodeLoop (starts.zip lengths)) =
          .ok (lengths.foldl (fun x l => wrap32 (x + wrap32 l)) 0,
            wrap32 starts.length))
    ∧ (∀ enc : List Nat, (∃ e, statsRuns enc = .error e) ↔ enc.length % 16 ≠ 0)
    ∧ (∀ enc : List Nat, enc.length % 16 = 0 →
        ∃ nv, statsRuns enc = .ok (nv, wrap32 ((enc.length / 16 : Nat)))) := by
  refine ⟨?_, ?_, ?_⟩
  · intro starts lengths h
    have hzlen : (starts.zip lengths).length = starts.length := by
      simp [List.length_zip, h]
    have hlen16 : (encodeLoop (starts.zip lengths)).length = 16 * starts.length := by
      rw [encodeLoop_length, hzlen]
    refine ⟨by simp [encodeRuns, h], hlen16, ?_⟩
    have hmod : (encodeLoop (starts.zip lengths)).length % 16 = 0 := by
      rw [hlen16]
      omega
    simp only [statsRuns, hmod]
    rw [if_neg (by omega)]
    rw [statsLoop_encodeLoop]
    have hsnd : List.map Prod.snd (starts.zip lengths) = lengths :=
      List.map_snd_zip starts lengths (le_of_eq h.symm)
    have hfold : (starts.zip lengths).foldl (fun x p => wrap32 (x + wrap32 p.2)) 0 =
        lengths.foldl (fun x l => wrap32 (x + wrap32 l)) 0 := by
      conv_rhs => rw [← hsnd]
      rw [List.foldl_map]
    have hruns : (starts.zip lengths).foldl
        (fun (x : Int) _ => wrap32 (x + 1)) 0 = wrap32 starts.length := by
      have := count_foldl_wrap32 ((starts.zip lengths).map (fun _ => 0)) 0 (by decide)
      rw [List.foldl_map] at this
      simpa [hzlen] using this
    rw [hfold, hruns]
  · intro enc
    by_cases h : enc.length % 16 = 0
    · simp [statsRuns, h]
    · simp [statsRuns, h]
  · intro enc h
    obtain ⟨nv, hnv⟩ := statsLoop_runs enc.length enc 0 0 rfl h (by decide)
    refine ⟨nv, ?_⟩
    simp only [statsRuns]
    rw [if_neg (by omega)]
    rw [hnv]
    norm_num

/-- C4 (witness): the round-trip and error behaviour at concrete inputs —
one run of length 4 starting at (1,2,3), a 1-byte malformed stream, and a
16-byte stream. -/
theorem c4_witness :
    encodeRuns [((1 : Int), 2, 3)] [(4 : Int)] =
      .ok (encodeLoop ([((1 : Int), 2, 3)].zip [(4 : Int)]))
    ∧ (encodeLoop ([((1 : Int), 2, 3)].zip [(4 : Int)])).length = 16 * 1
    ∧ statsRuns (encodeLoop ([((1 : Int), 2, 3)].zip [(4 : Int)])) =
        .ok ([(4 : Int)].foldl (fun x l => wrap32 (x + wrap32 l)) 0, wrap32 1)
    ∧ (∃ e, statsRuns [0] = .error e)
    ∧ (∃ nv, statsRuns (List.replicate 16 0) =
        .ok (nv, wrap32 ((List.replicate 16 (0 : Nat)).length / 16 : Nat))) := by
  obtain ⟨h1, h2, h3⟩ := c4_theorem.1 [((1 : Int), 2, 3)] [(4 : Int)] rfl
  refine ⟨h1, h2, h3, (c4_theorem.2.1 [0]).2 (by decide), ?_⟩
  exact c4_theorem.2.2 (List.replicate 16 0) (by simp)

/-! ## C3: the size pass over KLSM -/

/-- C3: evaluating `computeSizes` on a single KLSM chunk — label 1, one run
of length 2.  Instead of the claim's single record keyed `(size 2, label 1)`,
the pass emits two KLS records: a spurious `(size 0, label 0)` record (the
source initializes `notFirst := true`, so the very first chunk triggers the
label-transition emit), and a record whose key field holds the byte-swapped
label `2^56` (the label is read with `binary.LittleEndian.Uint64` from a key
field that `NewLabelSpatialMapKey` wrote big-endian). -/
theorem c3_theorem :
    computeSizes [⟨NewLabelSpatialMapIndex 1 (List.replicate 12 0),
        encodeLoop [(((0 : Int), 0, 0), 2)]⟩] =
      .ok [NewLabelSizesIndex 0 0, NewLabelSizesIndex 2 (2 ^ 56)]
    ∧ NewLabelSizesIndex 2 (2 ^ 56) ≠ NewLabelSizesIndex 2 1
    ∧ [NewLabelSizesIndex 0 0, NewLabelSizesIndex 2 (2 ^ 56)] ≠
        [NewLabelSizesIndex 2 1] := by
  refine ⟨?_, by decide, by decide⟩
  have hstats : statsRuns (encodeLoop [(((0 : Int), 0, 0), 2)]) = .ok (2, 1) := by
    simp only [statsRuns]
    rw [if_neg (by decide), statsLoop_encodeLoop]
    exact congrArg Except.ok (by decide)
  simp only [computeSizes, computeSizesLoop, hstats]
  exact congrArg Except.ok (by decide)

/-! ## C5: tar assembly for a missing supervoxel -/

/-- C5: evaluating the tar fan-out on supervoxels {1, 2} where only 1 has a
blob (`[7, 7]`).  The missing supervoxel 2 is not skipped: its `Get` returns
`nil` data with a `nil` error, `getSupervoxelGoroutine` builds a header of
size 0 for it anyway (the nil-data skip the writer's `fd.header != nil`
check anticipates is absent), and the tar receives a zero-length entry
`"2.dat"`. -/
theorem c5_theorem :
    sendTarfileEntries [(1, [7, 7])] "dat" [1, 2] =
      .ok [(("1.dat", 2), [7, 7]), (("2.dat", 0), [])] :=
  congrArg Except.ok (by decide)

/-! ## C6: worker partitioning in `sendTarfile` -/

/-- C6: evaluating the partition loop on the three-supervoxel enumeration
`[11, 22, 33]`.  Because the loop never increments `i`, every supervoxel is
assigned `handler = 0 % 256 = 0`: worker 0 receives the whole set and
worker 1 receives nothing, instead of the claimed `index mod 256`
round-robin that would give each of workers 0, 1, 2 one supervoxel. -/
theorem c6_theorem :
    sendTarfilePartition [11, 22, 33] = [(0, [11, 22, 33])]
    ∧ alookup (sendTarfilePartition [11, 22, 33]) 1 = none := by
  decide

/-! ## C7: sparse-volume stream layout -/

/-- C7 (counterexample): on a single KLSM value holding one run, the stream
`GetSparseVol` assembles differs from the claim's layout (8-byte header
directly followed by the runs, bytes 8..11 patched): the source writes a
12-byte header whose bytes 8..11 are a second `uint32` placeholder, so the
actual stream is 28 bytes where the claim's layout gives 24. -/
theorem c7_counterexample :
    GetSparseVolBytes [encodeLoop [(((7 : Int), 8, 9), 1)]] ≠
      claimSparseVolBytes [encodeLoop [(((7 : Int), 8, 9), 1)]] := by
  decide

/-- C7 (amended): the stream begins with the 8 bytes — payload descriptor 0,
dimensions 3, run dimension 0, reserved 0, `u32` num-voxels placeholder 0 —
then a `u32` little-endian num-runs field at bytes 8..11 patched to the
total run count, and the concatenated 16-byte runs follow from byte 12. -/
theorem c7_theorem (values : List (List Nat)) :
    GetSparseVolBytes values =
      ([0, 3, 0, 0] ++ putLE 4 0) ++
        putLE 4 (values.foldl (fun n v => (n + v.length / 16) % 4294967296) 0) ++
        values.flatten := by
  have hfold : ∀ (vs : List (List Nat)) (init : List Nat) (n : Nat),
      vs.foldl processLabelRunsFold (init, n) =
        (init ++ vs.flatten,
         vs.foldl (fun m v => (m + v.length / 16) % 4294967296) n) := by
    intro vs
    induction vs with
    | nil => intro init n; simp
    | cons v rest ih =>
      intro init n
      simp only [List.foldl, processLabelRunsFold, List.flatten_cons]
      rw [ih]
      simp [List.append_assoc]
  unfold GetSparseVolBytes
  rw [hfold]
  show patchAt (sparseVolHeader ++ values.flatten) 8 _ = _
  have hheader :
      sparseVolHeader = 0 :: 3 :: 0 :: 0 :: 0 :: 0 :: 0 :: 0 :: 0 :: 0 :: 0 :: 0 :: [] :=
    rfl
  unfold patchAt
  rw [hheader, putLE_length]
  simp [List.take, List.drop, putLE]

/-! ## C8: tar ingest -/

theorem entryPut_isSome_elim {E : List Char} {e : List Char × List Nat}
    (h : (entryPut E e).isSome) :
    ∃ sv ext, parseFilename e.1 = some (sv, ext) ∧ ext = E ∧ sv ≠ 0
      ∧ entryPut E e = some (NewTKey sv ext, e.2) := by
  cases hp : parseFilename e.1 with
  | none =>
    have hnone : entryPut E e = none := by
      simp only [entryPut, hp]
    rw [hnone] at h
    simp at h
  | some p =>
    obtain ⟨sv, ext⟩ := p
    by_cases hc : ext = E ∧ sv ≠ 0
    · refine ⟨sv, ext, rfl, hc.1, hc.2, ?_⟩
      simp only [entryPut, hp]
      rw [if_pos hc]
    · have hnone : entryPut E e = none := by
        simp only [entryPut, hp]
        rw [if_neg hc]
      rw [hnone] at h
      simp at h

theorem ingestLoop_goodEntries (E : List Char) :
    ∀ (good tail : List (List Char × List Nat))
      (acc : List ((Nat × List Char) × List Nat)),
      (∀ e ∈ good, (entryPut E e).isSome) →
      ingestLoop E (good ++ tail) acc =
        ingestLoop E tail (acc ++ good.filterMap (entryPut E)) := by
  intro good
  induction good with
  | nil => intro tail acc _; simp
  | cons e rest ih =>
    intro tail acc h
    obtain ⟨name, data⟩ := e
    obtain ⟨sv, ext, hp, hext, hsv, hput⟩ :=
      entryPut_isSome_elim (h (name, data) (by simp))
    simp only at hp hput
    simp only [List.cons_append, ingestLoop, hp]
    rw [if_neg (by simp [hext]), if_neg hsv]
    simp only [List.append_eq]
    rw [ih tail (acc ++ [(NewTKey sv ext, data)]) (fun u hu => h u (by simp [hu]))]
    rw [List.filterMap_cons, hput]
    simp

theorem ingestLoop_bad (E : List Char) (bad : List Char × List Nat)
    (rest : List (List Char × List Nat))
    (acc : List ((Nat × List Char) × List Nat))
    (h : entryPut E bad = none) :
    ∃ msg, ingestLoop E (bad :: rest) acc = (acc, some msg) := by
  obtain ⟨name, data⟩ := bad
  cases hp : parseFilename name with
  | none =>
    refine ⟨"file name is invalid, expect supervoxel+ext", ?_⟩
    simp only [ingestLoop, hp]
  | some p =>
    obtain ⟨sv, ext⟩ := p
    have hc : ¬(ext = E ∧ sv ≠ 0) := by
      intro hcpos
      have hsome : entryPut E (name, data) = some (NewTKey sv ext, data) := by
        simp only [entryPut, hp]
        rw [if_pos hcpos]
      rw [hsome] at h
      simp at h
    by_cases hext : ext = E
    · have hsv : sv = 0 := by
        by_contra hne
        exact hc ⟨hext, hne⟩
      refine ⟨"supervoxel 0 is reserved and cannot have data saved under 0 id", ?_⟩
      simp only [ingestLoop, hp]
      rw [if_neg (by simp [hext]), if_pos hsv]
    · refine ⟨"file name has bad extension", ?_⟩
      simp only [ingestLoop, hp]
      rw [if_pos hext]

/-- C8: `ingestTarfile` stores every acceptable entry's bytes under the
standard supervoxel key in stream order, and aborts with an error — issuing
no `Put` for the offending entry — at the first entry whose name fails to
parse as `%d.%s`, whose extension differs from the configured `Extension`,
or whose supervoxel id is 0. -/
theorem c8_theorem (E : List Char) (entries : List (List Char × List Nat)) :
    ((∀ e ∈ entries, (entryPut E e).isSome) →
      ingestTarfile E entries = (entries.filterMap (entryPut E), none))
    ∧ (∀ good bad rest, entries = good ++ bad :: rest →
        (∀ e ∈ good, (entryPut E e).isSome) →
        entryPut E bad = none →
        (ingestTarfile E entries).1 = good.filterMap (entryPut E)
        ∧ (ingestTarfile E entries).2.isSome) := by
  constructor
  · intro h
    unfold ingestTarfile
    have := ingestLoop_goodEntries E entries [] [] h
    rw [List.append_nil] at this
    rw [this]
    simp [ingestLoop]
  · intro good bad rest hsplit hgood hbad
    subst hsplit
    unfold ingestTarfile
    rw [ingestLoop_goodEntries E good (bad :: rest) [] hgood]
    obtain ⟨msg, hmsg⟩ :=
      ingestLoop_bad E bad rest ([] ++ good.filterMap (entryPut E)) hbad
    rw [hmsg]
    simp

/-- The extension `dat` and three entry names used by the ingest witness. -/
def datExt : List Char := "dat".toList

/-- C8 (witness): `c8_theorem` at extension `dat` — the two-entry stream
`12.dat, 34.dat` ingests both under their supervoxel keys, and the stream
`12.dat, 0.dat, 3.dat` puts only `12.dat` and aborts on the reserved id 0. -/
theorem c8_witness :
    ingestTarfile datExt [("12.dat".toList, [1]), ("34.dat".toList, [2])] =
      ([("12.dat".toList, [1]), ("34.dat".toList, [2])].filterMap
        (entryPut datExt), none)
    ∧ (ingestTarfile datExt
        [("12.dat".toList, [1]), ("0.dat".toList, [2]), ("3.dat".toList, [4])]).1 =
      [("12.dat".toList, [1])].filterMap (entryPut datExt)
    ∧ (ingestTarfile datExt
        [("12.dat".toList, [1]), ("0.dat".toList, [2]), ("3.dat".toList, [4])]).2.isSome := by
  refine ⟨(c8_theorem datExt _).1 (by decide), ?_, ?_⟩
  · exact ((c8_theorem datExt _).2 [("12.dat".toList, [1])]
      ("0.dat".toList, [2]) [("3.dat".toList, [4])] rfl (by decide) (by decide)).1
  · exact ((c8_theorem datExt _).2 [("12.dat".toList, [1])]
      ("0.dat".toList, [2]) [("3.dat".toList, [4])] rfl (by decide) (by decide)).2

end DVID
